import Mathlib

/-!
# Entity store of `ifc_core`: type index, type-listing cursor, type-erased iterator, bridge

A shallow embedding of `ifcparse/storage.h` and `cpp/ifc_bridge.cpp`, followed by
theorems about the embedded definitions.

Conventions of the embedding
* pointers to instances and to declarations are natural numbers (their identity);
* `std::map` is an association list kept in key order, read through `find`;
* the key bytes of the ordered store are `List Char`, compared bytewise;
* a dereference of a null pointer is the result `Except.error Fault.null_dereference`.
-/

set_option autoImplicit false

namespace IfcParse

/-! ## Resident backend: the exclusive type index -/

/-- Modelled from the spec: `IfcUtil::IfcBaseClass` is declared outside these sources.
An instance is known to the index by its identity `id`; `as_entity` is what
`declaration().as_entity()` yields for it, the entity type it is declared as, or
`none` (a null pointer) when its declaration is not an entity. -/
structure IfcBaseClass where
  id : Nat
  as_entity : Option Nat
deriving DecidableEq, Repr

/-- Modelled from the spec: `aggregate_of_instance` is declared outside these sources.
The spec calls it the set of instances of one type; it is held in insertion order. -/
abbrev aggregate_of_instance := List Nat

/-- Modelled from the spec: `aggregate_of_instance::push`, "insert the instance into
its type's set": the instance is appended. -/
def aggregate_of_instance.push (a : aggregate_of_instance) (e : Nat) : aggregate_of_instance :=
  a ++ [e]

/-- Modelled from the spec: `aggregate_of_instance::remove`, "remove the instance from
its type's set": no occurrence of the instance is left. -/
def aggregate_of_instance.remove (a : aggregate_of_instance) (e : Nat) : aggregate_of_instance :=
  a.filter (fun x => decide (x ≠ e))

/-- Modelled from the spec: `aggregate_of_instance::size`, the number of held instances. -/
def aggregate_of_instance.size (a : aggregate_of_instance) : Nat :=
  a.length

/-- The type `entities_by_type_t`: `std::map<const declaration*, aggregate_of_instance::ptr>`. -/
abbrev entities_by_type_t := List (Nat × aggregate_of_instance)

/-- The call `std::map::find`: the value stored under `ty`, `none` standing for `end()`. -/
def entities_by_type_t.find : entities_by_type_t → Nat → Option aggregate_of_instance
  | [], _ => none
  | (k, v) :: m, ty => if k = ty then some v else entities_by_type_t.find m ty

/-- The statement `m[ty].reset(new aggregate_of_instance())` for a key that `find` did
not locate: `operator[]` creates the entry at its place in key order and the entry is
made to hold a fresh, empty aggregate. -/
def entities_by_type_t.emplace : entities_by_type_t → Nat → entities_by_type_t
  | [], ty => [(ty, [])]
  | (k, v) :: m, ty =>
    if ty < k then (ty, []) :: (k, v) :: m
    else if k = ty then (k, []) :: m
    else (k, v) :: entities_by_type_t.emplace m ty

/-- An update made through the pointer stored under `ty` (`m[ty]->...`, `it->second->...`):
the aggregate that `find` locates is replaced by its image under `f`. -/
def entities_by_type_t.update :
    entities_by_type_t → Nat → (aggregate_of_instance → aggregate_of_instance) → entities_by_type_t
  | [], _, _ => []
  | (k, v) :: m, ty, f =>
    if k = ty then (k, f v) :: m else (k, v) :: entities_by_type_t.update m ty f

/-- The call `std::map::erase(key)`: no entry with that key is left. -/
def entities_by_type_t.erase : entities_by_type_t → Nat → entities_by_type_t
  | [], _ => []
  | (k, v) :: m, ty =>
    if k = ty then entities_by_type_t.erase m ty else (k, v) :: entities_by_type_t.erase m ty

/-- The member `in_memory_file_storage::add_type_ref`, as a function of `bytype_excl_`. -/
def add_type_ref (bytype_excl_ : entities_by_type_t) (new_entity : IfcBaseClass) :
    entities_by_type_t :=
  match new_entity.as_entity with
  | none => bytype_excl_
  | some ty =>
    let m :=
      match bytype_excl_.find ty with
      | none => bytype_excl_.emplace ty
      | some _ => bytype_excl_
    m.update ty (fun agg => agg.push new_entity.id)

/-- The member `in_memory_file_storage::remove_type_ref`, as a function of `bytype_excl_`. -/
def remove_type_ref (bytype_excl_ : entities_by_type_t) (new_entity : IfcBaseClass) :
    entities_by_type_t :=
  match new_entity.as_entity with
  | none => bytype_excl_
  | some ty =>
    match bytype_excl_.find ty with
    | none => bytype_excl_
    | some agg =>
      let m := bytype_excl_.update ty (fun a => a.remove new_entity.id)
      if (agg.remove new_entity.id).size = 0 then m.erase ty else m

/-- Modelled from the spec: `instances_of_type(type, false)`, the listing of the
instances of exactly one type, is outside these sources; it reads the type's set
from the index and is empty for a type without an entry. -/
def instances_of_type (bytype_excl_ : entities_by_type_t) (ty : Nat) : List Nat :=
  (bytype_excl_.find ty).getD []

/-- The entity type "Profile" of the spec's scenario. -/
def Profile : Nat := 10

/-- The entity type "Extrusion" of the spec's scenario. -/
def Extrusion : Nat := 20

/-- No type of the index maps to an empty set. -/
def no_empty_set (m : entities_by_type_t) : Prop :=
  ∀ ty, m.find ty ≠ some []

end IfcParse

namespace IfcParse

/-! ## Persistent backend: the type-listing cursor -/

/-- The bytes of a key of the ordered store (a `rocksdb::Slice`). -/
abbrev Key := List Char

/-- The constant `prefix_` of `rocksdb_types_iterator`: the two bytes `t|`. -/
def prefix_ : Key := ['t', '|']

/-- The call `Slice::starts_with`. -/
def starts_with : Key → Key → Bool
  | _, [] => true
  | [], _ :: _ => false
  | c :: k, d :: p => decide (c = d) && starts_with k p

/-- The key order of the store (the bytewise comparator): `key_lt a b` is `a < b`. -/
def key_lt : Key → Key → Bool
  | _, [] => false
  | [], _ :: _ => true
  | a :: k, b :: l => decide (a.toNat < b.toNat) || (decide (a = b) && key_lt k l)

/-- The C library `isspace` in the "C" locale: space and the controls 9 to 13. -/
def isspace (c : Char) : Bool :=
  decide (c.toNat = 32) || (decide (9 ≤ c.toNat) && decide (c.toNat ≤ 13))

/-- The C library `isdigit`. -/
def isdigit (c : Char) : Bool :=
  decide (48 ≤ c.toNat) && decide (c.toNat ≤ 57)

/-- The value of a run of decimal digits, most significant first. -/
def digits_value (ds : List Char) : Nat :=
  ds.foldl (fun acc c => 10 * acc + (c.toNat - 48)) 0

/-- The constant `LONG_MAX` of a 64-bit `long`. -/
def LONG_MAX : Int := 2 ^ 63 - 1

/-- The constant `LONG_MIN` of a 64-bit `long`. -/
def LONG_MIN : Int := -(2 ^ 63)

/-- The C library `strtol(nptr, &pEnd, 10)`: leading white space is skipped, one sign is
accepted, then the longest run of decimal digits is converted; a value out of the range
of `long` is replaced by `LONG_MAX` or `LONG_MIN`. The second component is the offset of
`pEnd` from `nptr`; without a digit nothing is converted: the result is 0 and `pEnd` is
`nptr`. -/
def strtol (nptr : List Char) : Int × Nat :=
  let s1 := nptr.dropWhile isspace
  let negative := decide (s1.head? = some '-')
  let s2 := if s1.head? = some '-' ∨ s1.head? = some '+' then s1.tail else s1
  let ds := s2.takeWhile isdigit
  if ds.isEmpty then (0, 0)
  else
    let acc : Int := if negative then -(digits_value ds : Int) else (digits_value ds : Int)
    (max LONG_MIN (min acc LONG_MAX), (nptr.length - s2.length) + ds.length)

/-- The conversion `(size_t)result` of a `long` to a 64-bit `size_t`. -/
def to_size_t (result : Int) : Nat :=
  (result % 2 ^ 64).toNat

/-- The call `sv.find(c, pos)`: the index of the first `c` at or after `pos`, `none`
standing for `npos`. -/
def sv_find (sv : Key) (c : Char) (pos : Nat) : Option Nat :=
  if c ∈ sv.drop pos then some (pos + (sv.drop pos).indexOf c) else none

/-- The body of `read_id_` once the current key `sv` has been read. -/
def read_id_sv (sv : Key) : Option Nat :=
  match sv_find sv '|' 2 with
  | none => none
  | some _ =>
    let r := strtol (sv.drop 2)
    if (sv.drop 2)[r.2]? = some '|' then some (to_size_t r.1) else none

/-- What goes wrong when a pointer or cursor is used where it must not be. -/
inductive Fault where
  | null_dereference
  | invalid_cursor
  | dangling_pointer
deriving DecidableEq, Repr

end IfcParse

namespace rocksdb

/-- A `rocksdb::Iterator`: the entries of the store from the cursor to the end, in key
order, the first one being the current entry. -/
abbrev Iterator := List IfcParse.Key

/-- The call `DB::NewIterator` followed by `Seek(target)`: the cursor stands on the first
key that is not below `target`. -/
def Iterator.Seek (db : List IfcParse.Key) (target : IfcParse.Key) : Iterator :=
  db.dropWhile (fun k => IfcParse.key_lt k target)

/-- The call `Iterator::Valid`. -/
def Iterator.Valid (it : Iterator) : Bool :=
  !it.isEmpty

/-- The call `Iterator::Next`. -/
def Iterator.Next (it : Iterator) : Iterator :=
  it.tail

/-- The call `Iterator::key`, which requires a valid cursor. -/
def Iterator.key (it : Iterator) : Except IfcParse.Fault IfcParse.Key :=
  match it with
  | [] => .error .invalid_cursor
  | k :: _ => .ok k

end rocksdb

namespace IfcParse

/-- The keys of the ordered store behind `rocks_db_file_storage::db`. -/
structure rocks_db_file_storage where
  db : List Key

/-- The class `rocksdb_types_iterator`: `state_` is the cursor, `none` when it is null.
The member `storage_` is read by `operator*` alone and is left out. -/
structure rocksdb_types_iterator where
  state_ : Option rocksdb.Iterator
deriving DecidableEq, Repr

/-- The member `read_id_`: it reads the current key through `state_`. -/
def rocksdb_types_iterator.read_id_ (it : rocksdb_types_iterator) :
    Except Fault (Option Nat) :=
  match it.state_ with
  | none => .error .null_dereference
  | some c =>
    match rocksdb.Iterator.key c with
    | .error f => .error f
    | .ok sv => .ok (read_id_sv sv)

/-- The default constructor: a null cursor. -/
def rocksdb_types_iterator.default_ : rocksdb_types_iterator :=
  ⟨none⟩

/-- The constructor `rocksdb_types_iterator(fs)`. -/
def rocksdb_types_iterator.of_storage (fs : rocks_db_file_storage) : rocksdb_types_iterator :=
  let state := rocksdb.Iterator.Seek fs.db prefix_
  match state with
  | [] => ⟨none⟩
  | k :: _ => if !starts_with k prefix_ then ⟨none⟩ else ⟨some state⟩

/-- The `while` loop of `operator++`, entered with the cursor `state_`: the result is the
cursor when the loop is left, `none` once it has been deleted. -/
def operator_inc_loop (last_id : Option Nat) : rocksdb.Iterator → Option rocksdb.Iterator
  | [] => some []
  | _ :: rest =>
    match rest with
    | [] => none
    | k :: rest' =>
      if !starts_with k prefix_ then none
      else if read_id_sv k != last_id then some (k :: rest')
      else operator_inc_loop last_id (k :: rest')

/-- The member `operator++`. -/
def rocksdb_types_iterator.operator_inc (it : rocksdb_types_iterator) :
    Except Fault rocksdb_types_iterator :=
  match it.state_ with
  | none => .ok it
  | some c =>
    match it.read_id_ with
    | .error f => .error f
    | .ok last_id => .ok ⟨operator_inc_loop last_id c⟩

/-- The member `operator==`. -/
def rocksdb_types_iterator.operator_eq (a other : rocksdb_types_iterator) :
    Except Fault Bool :=
  if a.state_ = none ∧ other.state_ = none then .ok true
  else
    match a.read_id_, other.read_id_ with
    | .ok x, .ok y => .ok (x == y)
    | .error f, _ => .error f
    | .ok _, .error f => .error f

/-- The member `operator!=`. -/
def rocksdb_types_iterator.operator_ne (a other : rocksdb_types_iterator) :
    Except Fault Bool :=
  match a.operator_eq other with
  | .ok b => .ok (!b)
  | .error f => .error f

/-- The iteration over the types: the key under the cursor is recorded and `operator++`
applied, until the cursor is null or `fuel` steps have been made. The result is the list
of recorded keys with the iterator that is left. -/
def rocksdb_types_iterator.traverse :
    Nat → rocksdb_types_iterator → Except Fault (List Key × rocksdb_types_iterator)
  | 0, it => .ok ([], it)
  | fuel + 1, it =>
    match it.state_ with
    | none => .ok ([], it)
    | some c =>
      match rocksdb.Iterator.key c, it.operator_inc with
      | .ok k, .ok next =>
        match rocksdb_types_iterator.traverse fuel next with
        | .ok (ks, last) => .ok (k :: ks, last)
        | .error f => .error f
      | .error f, _ => .error f
      | .ok _, .error f => .error f

/-- The first key of every maximal run of consecutive keys with one `read_id_` value,
among keys that follow a key whose value was `prev`. -/
def heads_after (prev : Option Nat) : List Key → List Key
  | [] => []
  | k :: rest =>
    if read_id_sv k = prev then heads_after prev rest
    else k :: heads_after (read_id_sv k) rest

/-- The first key of every maximal run of consecutive keys with one `read_id_` value. -/
def run_heads : List Key → List Key
  | [] => []
  | k :: rest => k :: heads_after (read_id_sv k) rest

/-- The type-index key of type id `n`: `t|`, the decimal digits of `n`, `|`, then the
rest of the key. -/
def type_key (n : Nat) (tail : Key) : Key :=
  't' :: '|' :: (Nat.toDigits 10 n ++ '|' :: tail)

/-- The keys of the store are in strictly increasing key order. -/
def sorted_keys (db : List Key) : Prop :=
  db.Pairwise (fun a b => key_lt a b = true)

/-! ### The iterator object and the cursor it points to

`rocksdb_types_iterator` above identifies `state_` with the cursor it points to, which is
all that one iterator used alone can tell. The class holds the cursor by raw pointer and
declares no copy constructor, so two iterator objects may point to one cursor; the
definitions below keep the cursors in a heap and the pointer in the object. -/

/-- The cursors created by `NewIterator`, by address; an address holds `none` once its
cursor has been deleted. -/
abbrev cursor_heap := List (Option rocksdb.Iterator)

/-- A `rocksdb_types_iterator` object as it lies in memory: `state_` is the address of
its cursor, `none` when it is null. -/
structure rocksdb_types_iterator_object where
  state_ : Option Nat
deriving DecidableEq, Repr

/-- The implicit copy constructor of `rocksdb_types_iterator`: the members are copied,
the pointer `state_` as a pointer; the heap is left as it is. -/
def rocksdb_types_iterator_object.copy (heap : cursor_heap)
    (o : rocksdb_types_iterator_object) : cursor_heap × rocksdb_types_iterator_object :=
  (heap, ⟨o.state_⟩)

/-- The key that `state_->key()` reads through the pointer of the object. -/
def rocksdb_types_iterator_object.key (heap : cursor_heap)
    (o : rocksdb_types_iterator_object) : Except Fault Key :=
  match o.state_ with
  | none => .error .null_dereference
  | some a =>
    match heap[a]? with
    | some (some c) => rocksdb.Iterator.key c
    | _ => .error .dangling_pointer

/-- The member `operator++` on an object in a heap: the cursor at `state_` is the one
that `Next()` moves and that `delete state_` removes; only this object's `state_` is set
to null. -/
def rocksdb_types_iterator_object.operator_inc (heap : cursor_heap)
    (o : rocksdb_types_iterator_object) :
    Except Fault (cursor_heap × rocksdb_types_iterator_object) :=
  match o.state_ with
  | none => .ok (heap, o)
  | some a =>
    match heap[a]? with
    | some (some c) =>
      match rocksdb_types_iterator.operator_inc ⟨some c⟩ with
      | .error f => .error f
      | .ok ⟨none⟩ => .ok (heap.set a none, ⟨none⟩)
      | .ok ⟨some c'⟩ => .ok (heap.set a (some c'), o)
    | _ => .error .dangling_pointer

end IfcParse

/-! ## The type-erased iterator -/

/-- The class `variant_iterator<Iterators...>`: the member `it_` is a
`std::variant<Iterators...>`, the index of the held alternative with an object of it;
`Iterators i` is the type of the objects of alternative `i`. -/
structure variant_iterator {ι : Type} (Iterators : ι → Type) where
  index : ι
  it_ : Iterators index

/-- What a postfix operator leaves: the memory outside the iterator objects, the
returned object `temp`, and `*this` after the step. -/
structure postfix_result {ι : Type} (M : Type) (Iterators : ι → Type) where
  memory : M
  returned : variant_iterator Iterators
  self : variant_iterator Iterators

namespace variant_iterator

variable {ι M : Type} {Iterators : ι → Type}

/-! Each member takes the operations of the alternatives that its `std::visit` lambda
calls. An operation of an alternative acts on the object and on the memory `M` outside
it that the object may point to; `copy i` is the copy constructor of alternative `i`,
`inc i` its `operator++`, `dec i` its `operator--`, `eq i` its `operator==`. -/

/-- The prefix `operator++`: `std::visit` applies `++iter` to the held alternative, in
place. -/
def operator_inc (inc : ∀ i, M → Iterators i → Except IfcParse.Fault (M × Iterators i))
    (m : M) (v : variant_iterator Iterators) :
    Except IfcParse.Fault (M × variant_iterator Iterators) :=
  match inc v.index m v.it_ with
  | .error f => .error f
  | .ok r => .ok (r.1, ⟨v.index, r.2⟩)

/-- The postfix `operator++(int)`: `temp(*this)` copy-constructs the held alternative,
`++(*this)` steps this iterator, `temp` is returned. -/
def operator_inc_post (copy : ∀ i, M → Iterators i → M × Iterators i)
    (inc : ∀ i, M → Iterators i → Except IfcParse.Fault (M × Iterators i))
    (m : M) (v : variant_iterator Iterators) :
    Except IfcParse.Fault (postfix_result M Iterators) :=
  let c := copy v.index m v.it_
  let temp : variant_iterator Iterators := ⟨v.index, c.2⟩
  match operator_inc inc c.1 v with
  | .error f => .error f
  | .ok r => .ok ⟨r.1, temp, r.2⟩

/-- The prefix `operator--`: `std::visit` applies `--iter` to the held alternative, in
place. -/
def operator_dec (dec : ∀ i, M → Iterators i → Except IfcParse.Fault (M × Iterators i))
    (m : M) (v : variant_iterator Iterators) :
    Except IfcParse.Fault (M × variant_iterator Iterators) :=
  match dec v.index m v.it_ with
  | .error f => .error f
  | .ok r => .ok (r.1, ⟨v.index, r.2⟩)

/-- The postfix `operator--(int)`: `temp(*this)` copy-constructs the held alternative,
`--(*this)` steps this iterator, `temp` is returned. -/
def operator_dec_post (copy : ∀ i, M → Iterators i → M × Iterators i)
    (dec : ∀ i, M → Iterators i → Except IfcParse.Fault (M × Iterators i))
    (m : M) (v : variant_iterator Iterators) :
    Except IfcParse.Fault (postfix_result M Iterators) :=
  let c := copy v.index m v.it_
  let temp : variant_iterator Iterators := ⟨v.index, c.2⟩
  match operator_dec dec c.1 v with
  | .error f => .error f
  | .ok r => .ok ⟨r.1, temp, r.2⟩

/-- The friend `operator==`, `lhs.it_ == rhs.it_` on `std::variant`: false when the
indices differ, otherwise the held alternative's own `operator==`. -/
def operator_eq [DecidableEq ι] (eq : ∀ i, Iterators i → Iterators i → Bool)
    (lhs rhs : variant_iterator Iterators) : Bool :=
  if h : lhs.index = rhs.index then eq rhs.index (h ▸ lhs.it_) rhs.it_
  else false

/-- The friend `operator!=`. -/
def operator_ne [DecidableEq ι] (eq : ∀ i, Iterators i → Iterators i → Bool)
    (lhs rhs : variant_iterator Iterators) : Bool :=
  !(operator_eq eq lhs rhs)

end variant_iterator

/-- The alternatives of `variant_iterator<rocksdb_types_iterator>`: the one persistent
kind of the header. -/
def persistent_alternatives : Unit → Type :=
  fun _ => IfcParse.rocksdb_types_iterator_object

/-- The copy constructor of the alternative of `persistent_alternatives`. -/
def persistent_copy : ∀ i : Unit, IfcParse.cursor_heap → persistent_alternatives i →
    IfcParse.cursor_heap × persistent_alternatives i :=
  fun _ heap o => IfcParse.rocksdb_types_iterator_object.copy heap o

/-- The `operator++` of the alternative of `persistent_alternatives`. -/
def persistent_inc : ∀ i : Unit, IfcParse.cursor_heap → persistent_alternatives i →
    Except IfcParse.Fault (IfcParse.cursor_heap × persistent_alternatives i) :=
  fun _ heap o => IfcParse.rocksdb_types_iterator_object.operator_inc heap o

namespace ifcbridge

/-! ## The bridge: `import_ifc`

The doubles written by `import_ifc` are the literals 0 and 1 and no arithmetic is done
on them; a `double` field holds them as integers. A pointer into a vector of the same
`FileRaw` is the index of the element it points to, `none` being `nullptr`. -/

/-- The struct `Pt2`. -/
structure Pt2 where
  x : Int
  y : Int
deriving DecidableEq, Repr

/-- The struct `ProfileRaw`. -/
structure ProfileRaw where
  pts : Option Nat
  len : Int
deriving DecidableEq, Repr

/-- The struct `ExtrusionRaw`. -/
structure ExtrusionRaw where
  profile : ProfileRaw
  height : Int
  xform : List Int
deriving DecidableEq, Repr

/-- The class `FileRaw`. -/
structure FileRaw where
  extrusions_ : List ExtrusionRaw
  pts_storage_ : List Pt2
deriving DecidableEq, Repr

/-- The call `std::vector::data()`. -/
def data {α : Type} (v : List α) : Option Nat :=
  if v.isEmpty then none else some 0

/-- The function `import_ifc`; the path is not read. -/
def import_ifc (_path : Option String) : FileRaw :=
  let out : FileRaw := ⟨[], []⟩
  let out := { out with pts_storage_ := out.pts_storage_ ++ [Pt2.mk 0 0] }
  let out := { out with pts_storage_ := out.pts_storage_ ++ [Pt2.mk 1 0] }
  let out := { out with pts_storage_ := out.pts_storage_ ++ [Pt2.mk 1 1] }
  let out := { out with pts_storage_ := out.pts_storage_ ++ [Pt2.mk 0 1] }
  let ex : ExtrusionRaw := ⟨⟨none, 0⟩, 0, List.replicate 16 0⟩
  let ex := { ex with profile := ⟨data out.pts_storage_, ex.profile.len⟩ }
  let ex := { ex with profile := ⟨ex.profile.pts, 4⟩ }
  let ex := { ex with height := 1 }
  let ex := (List.range 16).foldl
    (fun (ex : ExtrusionRaw) i => { ex with xform := ex.xform.set i (if i % 5 = 0 then 1 else 0) }) ex
  { out with extrusions_ := out.extrusions_ ++ [ex] }

/-- The function `extrusions_ptr`. -/
def extrusions_ptr (f : FileRaw) : Option Nat :=
  if f.extrusions_.isEmpty then none else data f.extrusions_

/-- The function `extrusions_len`. -/
def extrusions_len (f : FileRaw) : Nat :=
  f.extrusions_.length

end ifcbridge

/-! ## Theorems -/

namespace IfcParse

theorem find_emplace (m : entities_by_type_t) (ty ty' : Nat) :
    (m.emplace ty).find ty' = if ty' = ty then some [] else m.find ty' := by
  induction m with
  | nil =>
    by_cases h : ty' = ty
    · simp [entities_by_type_t.emplace, entities_by_type_t.find, h]
    · have h' : ¬ ty = ty' := fun e => h e.symm
      simp [entities_by_type_t.emplace, entities_by_type_t.find, h, h']
  | cons p m ih =>
    obtain ⟨k, v⟩ := p
    unfold entities_by_type_t.emplace
    by_cases h1 : ty < k
    · simp only [h1, if_true]
      by_cases h : ty' = ty
      · simp [entities_by_type_t.find, h]
      · have h' : ¬ ty = ty' := fun e => h e.symm
        simp [entities_by_type_t.find, h, h']
    · simp only [h1, if_false]
      by_cases h2 : k = ty
      · simp only [h2, if_true]
        by_cases h : ty' = ty
        · simp [entities_by_type_t.find, h]
        · have h' : ¬ ty = ty' := fun e => h e.symm
          simp [entities_by_type_t.find, h, h']
      · simp only [h2, if_false]
        by_cases h : ty' = ty
        · subst h
          simp [entities_by_type_t.find, h2, ih]
        · by_cases h3 : k = ty'
          · simp [entities_by_type_t.find, h3, h]
          · simp [entities_by_type_t.find, h3, h, ih]

theorem find_update (m : entities_by_type_t) (ty ty' : Nat)
    (f : aggregate_of_instance → aggregate_of_instance) :
    (m.update ty f).find ty' = if ty' = ty then (m.find ty).map f else m.find ty' := by
  induction m with
  | nil => simp [entities_by_type_t.update, entities_by_type_t.find]
  | cons p m ih =>
    obtain ⟨k, v⟩ := p
    unfold entities_by_type_t.update
    by_cases h2 : k = ty
    · simp only [h2, if_true]
      by_cases h : ty' = ty
      · simp [entities_by_type_t.find, h]
      · have h' : ¬ ty = ty' := fun e => h e.symm
        simp [entities_by_type_t.find, h, h']
    · simp only [h2, if_false]
      by_cases h : ty' = ty
      · subst h
        simp [entities_by_type_t.find, h2, ih]
      · by_cases h3 : k = ty'
        · simp [entities_by_type_t.find, h3, h]
        · simp [entities_by_type_t.find, h3, h, ih]

theorem find_erase (m : entities_by_type_t) (ty ty' : Nat) :
    (m.erase ty).find ty' = if ty' = ty then none else m.find ty' := by
  induction m with
  | nil => simp [entities_by_type_t.erase, entities_by_type_t.find]
  | cons p m ih =>
    obtain ⟨k, v⟩ := p
    unfold entities_by_type_t.erase
    by_cases h2 : k = ty
    · simp only [h2, if_true]
      rw [ih]
      by_cases h : ty' = ty
      · simp [h]
      · have h' : ¬ ty = ty' := fun e => h e.symm
        simp [entities_by_type_t.find, h, h']
    · simp only [h2, if_false]
      by_cases h : ty' = ty
      · subst h
        simp [entities_by_type_t.find, h2, ih]
      · by_cases h3 : k = ty'
        · simp [entities_by_type_t.find, h3, h]
        · simp [entities_by_type_t.find, h3, h, ih]

/-- What `find` sees after `add_type_ref` of an instance declared as entity `T`. -/
theorem find_add_type_ref (m : entities_by_type_t) (e : IfcBaseClass) (T ty' : Nat)
    (h : e.as_entity = some T) :
    (add_type_ref m e).find ty' =
      if ty' = T then some (((m.find T).getD []).push e.id) else m.find ty' := by
  unfold add_type_ref
  rw [h]
  simp only
  rw [find_update]
  by_cases hty : ty' = T
  · simp only [hty, if_true]
    cases hf : m.find T with
    | none => simp [find_emplace]
    | some s => simp [hf]
  · simp only [hty, if_false]
    cases hf : m.find T with
    | none => simp [find_emplace, hty]
    | some s => simp

/-- What `find` sees after `remove_type_ref` of an instance declared as entity `T`. -/
theorem find_remove_type_ref (m : entities_by_type_t) (e : IfcBaseClass) (T ty' : Nat)
    (h : e.as_entity = some T) :
    (remove_type_ref m e).find ty' =
      if ty' = T then
        match m.find T with
        | none => none
        | some s => if s.remove e.id = [] then none else some (s.remove e.id)
      else m.find ty' := by
  unfold remove_type_ref
  rw [h]
  simp only
  cases hf : m.find T with
  | none =>
    by_cases hty : ty' = T
    · simp [hty, hf]
    · simp [hty]
  | some s =>
    simp only [aggregate_of_instance.size, List.length_eq_zero]
    by_cases hs : s.remove e.id = []
    · simp only [hs, if_true]
      rw [find_erase]
      by_cases hty : ty' = T
      · simp [hty]
      · simp [hty, find_update]
    · simp only [hs, if_false]
      rw [find_update]
      by_cases hty : ty' = T
      · simp [hty, hf]
      · simp [hty]

theorem mem_remove (s : aggregate_of_instance) (e x : Nat) :
    x ∈ s.remove e ↔ x ∈ s ∧ x ≠ e := by
  simp [aggregate_of_instance.remove, List.mem_filter]

/-- C1: in a type index where no type maps to an empty set, `add_type_ref` and
`remove_type_ref` both give an index where again no type maps to an empty set; when
removing the instance empties its type's set, the type has no entry afterwards. -/
theorem type_index_never_maps_to_empty_set (m : entities_by_type_t) (e : IfcBaseClass)
    (h : no_empty_set m) :
    no_empty_set (add_type_ref m e) ∧ no_empty_set (remove_type_ref m e) ∧
    (∀ T s, e.as_entity = some T → m.find T = some s → s.remove e.id = [] →
      (remove_type_ref m e).find T = none) := by
  refine ⟨?_, ?_, ?_⟩
  · intro ty
    cases hT : e.as_entity with
    | none =>
      have : add_type_ref m e = m := by simp [add_type_ref, hT]
      rw [this]; exact h ty
    | some T =>
      rw [find_add_type_ref m e T ty hT]
      by_cases hty : ty = T
      · simp [hty, aggregate_of_instance.push]
      · simp only [hty, if_false]; exact h ty
  · intro ty
    cases hT : e.as_entity with
    | none =>
      have : remove_type_ref m e = m := by simp [remove_type_ref, hT]
      rw [this]; exact h ty
    | some T =>
      rw [find_remove_type_ref m e T ty hT]
      by_cases hty : ty = T
      · simp only [hty, if_true]
        cases hf : m.find T with
        | none => simp
        | some s =>
          by_cases hs : s.remove e.id = []
          · simp [hs]
          · simp [hs]
      · simp only [hty, if_false]; exact h ty
  · intro T s hT hf hs
    rw [find_remove_type_ref m e T T hT]
    simp [hf, hs]

/-- The index `{Profile -> [1], Extrusion -> [2]}` holds no empty set. -/
theorem scenario_index_no_empty_set :
    no_empty_set [(Profile, [1]), (Extrusion, [2])] := by
  intro ty
  simp only [entities_by_type_t.find]
  split_ifs <;> simp

theorem type_index_never_maps_to_empty_set_witness :
    no_empty_set [(Profile, [1]), (Extrusion, [2])] ∧
    (no_empty_set (add_type_ref [(Profile, [1]), (Extrusion, [2])] ⟨2, some Extrusion⟩) ∧
     no_empty_set (remove_type_ref [(Profile, [1]), (Extrusion, [2])] ⟨2, some Extrusion⟩) ∧
     (∀ T s, (⟨2, some Extrusion⟩ : IfcBaseClass).as_entity = some T →
        entities_by_type_t.find [(Profile, [1]), (Extrusion, [2])] T = some s →
        s.remove (⟨2, some Extrusion⟩ : IfcBaseClass).id = [] →
        (remove_type_ref [(Profile, [1]), (Extrusion, [2])] ⟨2, some Extrusion⟩).find T = none)) :=
  ⟨scenario_index_no_empty_set,
   type_index_never_maps_to_empty_set _ _ scenario_index_no_empty_set⟩

/-- C2: after `add_type_ref(e)` of an instance declared as entity `T`, the set stored
under `T` is the former set (empty when `T` had no entry) with `e` appended, so `e` is a
member and every former member still is; the entry of every other type is unchanged.
On the empty index, adding instance 1 of type Profile gives `Profile -> [1]` alone. -/
theorem add_type_ref_registers_under_own_type (m : entities_by_type_t) (e : IfcBaseClass)
    (T : Nat) (h : e.as_entity = some T) :
    (add_type_ref m e).find T = some (((m.find T).getD []).push e.id) ∧
    (∃ s, (add_type_ref m e).find T = some s ∧ e.id ∈ s ∧
      ∀ s0 x, m.find T = some s0 → x ∈ s0 → x ∈ s) ∧
    (∀ T', T' ≠ T → (add_type_ref m e).find T' = m.find T') ∧
    (add_type_ref [] ⟨1, some Profile⟩ = [(Profile, [1])] ∧
      instances_of_type (add_type_ref [] ⟨1, some Profile⟩) Profile = [1]) := by
  have hfind := find_add_type_ref m e T T h
  simp only [if_true] at hfind
  refine ⟨hfind, ⟨_, hfind, ?_, ?_⟩, ?_, ?_⟩
  · simp [aggregate_of_instance.push]
  · intro s0 x hs0 hx
    simp [aggregate_of_instance.push, hs0, hx]
  · intro T' hT'
    rw [find_add_type_ref m e T T' h]
    simp [hT']
  · constructor <;> decide

theorem add_type_ref_registers_under_own_type_witness :
    (⟨1, some Profile⟩ : IfcBaseClass).as_entity = some Profile ∧
    (add_type_ref [] ⟨1, some Profile⟩).find Profile = some [1] :=
  ⟨rfl, (add_type_ref_registers_under_own_type [] ⟨1, some Profile⟩ Profile rfl).1⟩

/-- C3: after `remove_type_ref(e)` of an instance declared as entity `T`, `e` is not a
member of the set under `T`, every other former member still is, and the entry of every
other type is unchanged; when `T` has no entry the index is unchanged. From
`{Profile -> [1], Extrusion -> [2]}`, removing instance 2 leaves `{Profile -> [1]}` and the
instances of Extrusion list as `[]`. -/
theorem remove_type_ref_unregisters_from_own_type (m : entities_by_type_t) (e : IfcBaseClass)
    (T : Nat) (h : e.as_entity = some T) :
    (∀ s, (remove_type_ref m e).find T = some s → e.id ∉ s) ∧
    (∀ s0 x, m.find T = some s0 → x ∈ s0 → x ≠ e.id →
      ∃ s, (remove_type_ref m e).find T = some s ∧ x ∈ s) ∧
    (∀ T', T' ≠ T → (remove_type_ref m e).find T' = m.find T') ∧
    (m.find T = none → remove_type_ref m e = m) ∧
    (remove_type_ref [(Profile, [1]), (Extrusion, [2])] ⟨2, some Extrusion⟩ = [(Profile, [1])] ∧
      instances_of_type
        (remove_type_ref [(Profile, [1]), (Extrusion, [2])] ⟨2, some Extrusion⟩) Extrusion = []) := by
  have hfind := find_remove_type_ref m e T T h
  simp only [if_true] at hfind
  refine ⟨?_, ?_, ?_, ?_, ?_⟩
  · intro s hs
    rw [hfind] at hs
    cases hf : m.find T with
    | none => simp [hf] at hs
    | some s0 =>
      simp only [hf] at hs
      by_cases he : s0.remove e.id = []
      · simp [he] at hs
      · simp only [he, if_false, Option.some.injEq] at hs
        rw [← hs, mem_remove]
        exact fun hx => hx.2 rfl
  · intro s0 x hs0 hx hne
    have hmem : x ∈ s0.remove e.id := (mem_remove s0 e.id x).2 ⟨hx, hne⟩
    have he : s0.remove e.id ≠ [] := List.ne_nil_of_mem hmem
    refine ⟨s0.remove e.id, ?_, hmem⟩
    rw [hfind]
    simp [hs0, he]
  · intro T' hT'
    rw [find_remove_type_ref m e T T' h]
    simp [hT']
  · intro hnone
    simp [remove_type_ref, h, hnone]
  · constructor <;> decide

theorem remove_type_ref_unregisters_from_own_type_witness :
    (⟨2, some Extrusion⟩ : IfcBaseClass).as_entity = some Extrusion ∧
    (∀ s, (remove_type_ref [(Profile, [1]), (Extrusion, [2])] ⟨2, some Extrusion⟩).find Extrusion
        = some s → (⟨2, some Extrusion⟩ : IfcBaseClass).id ∉ s) :=
  ⟨rfl, (remove_type_ref_unregisters_from_own_type [(Profile, [1]), (Extrusion, [2])]
    ⟨2, some Extrusion⟩ Extrusion rfl).1⟩

end IfcParse

namespace IfcParse

/-! ### The key order and the prefix range -/

theorem key_lt_trans : ∀ a b c : Key, key_lt a b = true → key_lt b c = true →
    key_lt a c = true := by
  intro a
  induction a with
  | nil =>
    intro b c hab hbc
    cases c with
    | nil => cases b <;> simp [key_lt] at hbc
    | cons z c => simp [key_lt]
  | cons x a ih =>
    intro b c hab hbc
    cases b with
    | nil => simp [key_lt] at hab
    | cons y b =>
      cases c with
      | nil => simp [key_lt] at hbc
      | cons z c =>
        simp only [key_lt, Bool.or_eq_true, Bool.and_eq_true, decide_eq_true_eq] at hab hbc ⊢
        rcases hab with hab | ⟨hxy, hab⟩
        · rcases hbc with hbc | ⟨hyz, hbc⟩
          · left; omega
          · subst hyz; left; exact hab
        · subst hxy
          rcases hbc with hbc | ⟨hyz, hbc⟩
          · left; exact hbc
          · subst hyz; right; exact ⟨rfl, ih b c hab hbc⟩

theorem key_lt_of_starts_with : ∀ (p k : Key), starts_with k p = true → key_lt k p = false := by
  intro p
  induction p with
  | nil => intro k _; cases k <;> simp [key_lt]
  | cons d p ih =>
    intro k h
    cases k with
    | nil => simp [starts_with] at h
    | cons c k =>
      simp only [starts_with, Bool.and_eq_true, decide_eq_true_eq] at h
      obtain ⟨hcd, hk⟩ := h
      subst hcd
      simp [key_lt, ih k hk]

theorem key_lt_prefix_of_lt : ∀ (p a b : Key), key_lt a b = true → starts_with b p = true →
    starts_with a p = false → key_lt a p = true := by
  intro p
  induction p with
  | nil => intro a b _ _ ha; cases a <;> simp [starts_with] at ha
  | cons d p ih =>
    intro a b hab hb ha
    cases b with
    | nil => simp [starts_with] at hb
    | cons y b =>
      simp only [starts_with, Bool.and_eq_true, decide_eq_true_eq] at hb
      obtain ⟨hyd, hb⟩ := hb
      subst hyd
      cases a with
      | nil => simp [key_lt]
      | cons x a =>
        simp only [key_lt, Bool.or_eq_true, Bool.and_eq_true, decide_eq_true_eq] at hab ⊢
        rcases hab with hab | ⟨hxy, hab⟩
        · left; exact hab
        · subst hxy
          right
          refine ⟨rfl, ih a b hab hb ?_⟩
          simpa [starts_with] using ha

/-- Keys with a common prefix form an interval of the key order. -/
theorem starts_with_between (p x z y : Key) (hxz : key_lt x z = true) (hzy : key_lt z y = true)
    (hx : starts_with x p = true) (hy : starts_with y p = true) : starts_with z p = true := by
  by_contra hz
  have hz' : starts_with z p = false := by simpa using hz
  have h1 := key_lt_prefix_of_lt p z y hzy hy hz'
  have h2 := key_lt_trans x z p hxz h1
  rw [key_lt_of_starts_with p x hx] at h2
  cases h2

theorem takeWhile_eq_filter_of_not_below (p : Key) : ∀ l : List Key, sorted_keys l →
    (∀ x ∈ l, key_lt x p = false) →
    l.takeWhile (fun k => starts_with k p) = l.filter (fun k => starts_with k p) := by
  intro l
  induction l with
  | nil => intro _ _; rfl
  | cons a l ih =>
    intro hs hge
    have hs' := List.pairwise_cons.1 hs
    by_cases ha : starts_with a p = true
    · rw [List.takeWhile_cons, List.filter_cons]
      simp only [ha, if_true]
      rw [ih hs'.2 (fun x hx => hge x (List.mem_cons_of_mem _ hx))]
    · have ha' : starts_with a p = false := by simpa using ha
      rw [List.takeWhile_cons, List.filter_cons]
      simp only [ha', Bool.false_eq_true, if_false]
      symm
      rw [List.filter_eq_nil_iff]
      intro b hb hbp
      have := key_lt_prefix_of_lt p a b (hs'.1 b hb) hbp ha'
      rw [hge a (List.mem_cons_self _ _)] at this
      cases this

/-- In a sorted store the keys from `Seek(p)` on that start with `p` are all the keys
of the store that start with `p`. -/
theorem seek_range_eq_filter (p : Key) : ∀ db : List Key, sorted_keys db →
    (rocksdb.Iterator.Seek db p).takeWhile (fun k => starts_with k p)
      = db.filter (fun k => starts_with k p) := by
  intro db
  induction db with
  | nil => intro _; rfl
  | cons a l ih =>
    intro hs
    have hs' := List.pairwise_cons.1 hs
    by_cases ha : key_lt a p = true
    · have hpa : starts_with a p = false := by
        by_contra hc
        have hc' : starts_with a p = true := by simpa using hc
        rw [key_lt_of_starts_with p a hc'] at ha
        cases ha
      have hseek : rocksdb.Iterator.Seek (a :: l) p = rocksdb.Iterator.Seek l p := by
        simp [rocksdb.Iterator.Seek, List.dropWhile_cons, ha]
      rw [hseek, ih hs'.2, List.filter_cons]
      simp [hpa]
    · have ha' : key_lt a p = false := by simpa using ha
      have hseek : rocksdb.Iterator.Seek (a :: l) p = a :: l := by
        simp [rocksdb.Iterator.Seek, List.dropWhile_cons, ha']
      rw [hseek]
      apply takeWhile_eq_filter_of_not_below p (a :: l) hs
      intro x hx
      rcases List.mem_cons.1 hx with rfl | hx
      · exact ha'
      · by_contra hc
        have hc' : key_lt x p = true := by simpa using hc
        have := key_lt_trans a x p (hs'.1 x hx) hc'
        rw [ha'] at this
        cases this

/-! ### The iteration visits the first key of every run -/

theorem traverse_null (n : Nat) :
    rocksdb_types_iterator.traverse n ⟨none⟩ = .ok ([], ⟨none⟩) := by
  cases n <;> rfl

theorem traverse_after_loop : ∀ (rest : List Key) (k : Key) (id : Option Nat) (n : Nat),
    rest.length ≤ n →
    rocksdb_types_iterator.traverse n ⟨operator_inc_loop id (k :: rest)⟩
      = .ok (heads_after id (rest.takeWhile (fun k => starts_with k prefix_)), ⟨none⟩) := by
  intro rest
  induction rest with
  | nil =>
    intro k id n _
    simp only [operator_inc_loop, List.takeWhile_nil, heads_after]
    exact traverse_null n
  | cons k' rest ih =>
    intro k id n hn
    by_cases hp : starts_with k' prefix_ = true
    · by_cases hid : read_id_sv k' = id
      · have hloop : operator_inc_loop id (k :: k' :: rest) = operator_inc_loop id (k' :: rest) := by
          simp [operator_inc_loop, hp, hid]
        rw [hloop, ih k' id n (by simp at hn; omega), List.takeWhile_cons]
        simp [hp, heads_after, hid]
      · have hloop : operator_inc_loop id (k :: k' :: rest) = some (k' :: rest) := by
          simp [operator_inc_loop, hp, hid]
        rw [hloop]
        obtain ⟨m, rfl⟩ : ∃ m, n = m + 1 := ⟨n - 1, by simp at hn; omega⟩
        have hstep : rocksdb_types_iterator.operator_inc ⟨some (k' :: rest)⟩
            = .ok ⟨operator_inc_loop (read_id_sv k') (k' :: rest)⟩ := rfl
        simp only [rocksdb_types_iterator.traverse, rocksdb.Iterator.key, hstep]
        rw [ih k' (read_id_sv k') m (by simp at hn; omega), List.takeWhile_cons]
        simp [hp, heads_after, hid]
    · have hp' : starts_with k' prefix_ = false := by simpa using hp
      have hloop : operator_inc_loop id (k :: k' :: rest) = none := by
        simp [operator_inc_loop, hp']
      rw [hloop, traverse_null, List.takeWhile_cons]
      simp [hp', heads_after]

theorem traverse_positioned (k : Key) (rest : List Key) (n : Nat) (hn : rest.length + 1 ≤ n) :
    rocksdb_types_iterator.traverse n ⟨some (k :: rest)⟩
      = .ok (k :: heads_after (read_id_sv k)
          (rest.takeWhile (fun k => starts_with k prefix_)), ⟨none⟩) := by
  obtain ⟨m, rfl⟩ : ∃ m, n = m + 1 := ⟨n - 1, by omega⟩
  have hstep : rocksdb_types_iterator.operator_inc ⟨some (k :: rest)⟩
      = .ok ⟨operator_inc_loop (read_id_sv k) (k :: rest)⟩ := rfl
  simp only [rocksdb_types_iterator.traverse, rocksdb.Iterator.key, hstep]
  rw [traverse_after_loop rest k (read_id_sv k) m (by omega)]

theorem seek_length_le (db : List Key) (p : Key) :
    (rocksdb.Iterator.Seek db p).length ≤ db.length := by
  unfold rocksdb.Iterator.Seek
  exact (List.dropWhile_sublist _).length_le

/-- Over a sorted store the iteration from the constructed iterator ends with a null
cursor after at most one step per key, having visited the first key of every maximal
run of `t|` keys with one `read_id_` value. -/
theorem traverse_of_storage (db : List Key) (hs : sorted_keys db) :
    (rocksdb_types_iterator.of_storage ⟨db⟩).traverse db.length
      = .ok (run_heads (db.filter (fun k => starts_with k prefix_)), ⟨none⟩) := by
  rw [← seek_range_eq_filter prefix_ db hs]
  have hlen := seek_length_le db prefix_
  unfold rocksdb_types_iterator.of_storage
  simp only
  cases hseek : rocksdb.Iterator.Seek db prefix_ with
  | nil => simp [traverse_null, run_heads]
  | cons k rest =>
    rw [hseek] at hlen
    by_cases hp : starts_with k prefix_ = true
    · simp only [hp, Bool.not_true, Bool.false_eq_true, if_false]
      rw [traverse_positioned k rest db.length (by simpa using hlen), List.takeWhile_cons]
      simp [hp, run_heads]
    · have hp' : starts_with k prefix_ = false := by simpa using hp
      simp only [hp', Bool.not_false, if_true]
      rw [traverse_null, List.takeWhile_cons]
      simp [hp', run_heads]

end IfcParse

namespace IfcParse

/-! ### Decimal digits, `strtol` and `read_id_` -/

theorem digitChar_toNat (m : Nat) (h : m < 10) : (Nat.digitChar m).toNat = 48 + m := by
  interval_cases m <;> rfl

theorem digits_value_foldl (l : List Char) (a : Nat) :
    l.foldl (fun acc c => 10 * acc + (c.toNat - 48)) a = a * 10 ^ l.length + digits_value l := by
  induction l generalizing a with
  | nil => simp [digits_value]
  | cons c l ih =>
    simp only [List.foldl_cons, digits_value, List.length_cons]
    rw [ih, ih (10 * 0 + (c.toNat - 48))]
    ring

theorem digits_value_cons (c : Char) (l : List Char) :
    digits_value (c :: l) = (c.toNat - 48) * 10 ^ l.length + digits_value l := by
  rw [digits_value, List.foldl_cons, digits_value_foldl]
  simp

theorem toDigitsCore_spec : ∀ (fuel n : Nat) (acc : List Char), n < fuel →
    (∀ c ∈ acc, isdigit c = true) →
    (∀ c ∈ Nat.toDigitsCore 10 fuel n acc, isdigit c = true) ∧
    Nat.toDigitsCore 10 fuel n acc ≠ [] ∧
    digits_value (Nat.toDigitsCore 10 fuel n acc) = n * 10 ^ acc.length + digits_value acc := by
  intro fuel
  induction fuel with
  | zero => intro n acc h; omega
  | succ fuel ih =>
    intro n acc hn hacc
    have hd : (Nat.digitChar (n % 10)).toNat = 48 + n % 10 :=
      digitChar_toNat _ (Nat.mod_lt _ (by decide))
    have hdig : isdigit (Nat.digitChar (n % 10)) = true := by
      simp [isdigit, hd]; omega
    have hacc' : ∀ c ∈ Nat.digitChar (n % 10) :: acc, isdigit c = true := by
      intro c hc
      rcases List.mem_cons.1 hc with rfl | hc
      · exact hdig
      · exact hacc c hc
    unfold Nat.toDigitsCore
    simp only
    by_cases h0 : n / 10 = 0
    · simp only [h0, if_true]
      refine ⟨hacc', by simp, ?_⟩
      rw [digits_value_cons, hd]
      have : n % 10 = n := Nat.mod_eq_of_lt (by omega)
      simp [this]
    · simp only [h0, if_false]
      obtain ⟨h1, h2, h3⟩ := ih (n / 10) (Nat.digitChar (n % 10) :: acc) (by omega) hacc'
      refine ⟨h1, h2, ?_⟩
      rw [h3, digits_value_cons, hd, List.length_cons]
      have hsplit : n = 10 * (n / 10) + n % 10 := (Nat.div_add_mod n 10).symm
      have key : n * 10 ^ acc.length
          = n / 10 * 10 ^ (acc.length + 1) + n % 10 * 10 ^ acc.length := by
        conv_lhs => rw [hsplit]
        ring
      rw [key]
      simp only [Nat.add_sub_cancel_left]
      ring

theorem toDigits_spec (n : Nat) :
    (∀ c ∈ Nat.toDigits 10 n, isdigit c = true) ∧ Nat.toDigits 10 n ≠ [] ∧
    digits_value (Nat.toDigits 10 n) = n := by
  have := toDigitsCore_spec (n + 1) n [] (by omega) (by simp)
  simpa [Nat.toDigits, digits_value] using this


theorem not_space_of_digit (c : Char) (h : isdigit c = true) : isspace c = false := by
  simp only [isdigit, Bool.and_eq_true, decide_eq_true_eq] at h
  simp only [isspace, Bool.or_eq_false_iff, Bool.and_eq_false_iff, decide_eq_false_iff_not]
  omega

theorem digit_ne_special (c : Char) (h : isdigit c = true) :
    c ≠ '-' ∧ c ≠ '+' ∧ c ≠ '|' := by
  refine ⟨?_, ?_, ?_⟩ <;> · rintro rfl; revert h; decide

theorem space_ne_bar (c : Char) (h : isspace c = true) : c ≠ '|' := by
  rintro rfl; revert h; decide

/-- What `strtol` computes on white space, an optional sign, a non-empty run of digits
and a remainder that does not start with a digit. -/
theorem strtol_of_parts (ws sg ds rest : List Char) (hws : ∀ c ∈ ws, isspace c = true)
    (hsg : sg = [] ∨ sg = ['+'] ∨ sg = ['-']) (hds : ∀ c ∈ ds, isdigit c = true)
    (hne : ds ≠ []) (hrest : rest.takeWhile isdigit = []) :
    strtol (ws ++ (sg ++ (ds ++ rest)))
      = (max LONG_MIN (min (if sg = ['-'] then -(digits_value ds : Int)
            else (digits_value ds : Int)) LONG_MAX),
         ws.length + sg.length + ds.length) := by
  obtain ⟨d, ds', rfl⟩ := List.exists_cons_of_ne_nil hne
  have hd : isdigit d = true := hds d (List.mem_cons_self _ _)
  have hdsp := not_space_of_digit d hd
  obtain ⟨hd1, hd2, -⟩ := digit_ne_special d hd
  have htake : (d :: ds' ++ rest).takeWhile isdigit = d :: ds' := by
    rw [List.takeWhile_append_of_pos hds, hrest, List.append_nil]
  have hdrop : (ws ++ (sg ++ (d :: ds' ++ rest))).dropWhile isspace
      = sg ++ (d :: ds' ++ rest) := by
    rw [List.dropWhile_append_of_pos hws]
    rcases hsg with rfl | rfl | rfl
    · simp [List.dropWhile_cons, hdsp]
    · rw [List.cons_append, List.dropWhile_cons]
      simp [show isspace '+' = false by decide]
    · rw [List.cons_append, List.dropWhile_cons]
      simp [show isspace '-' = false by decide]
  unfold strtol
  simp only [hdrop]
  rcases hsg with rfl | rfl | rfl
  · simp only [List.nil_append, List.cons_append, List.head?_cons, Option.some.injEq, hd1, hd2,
      or_self, if_false, decide_False]
    rw [← List.cons_append, htake]
    simp
  · have h1 : ('+' : Char) ≠ '-' := by decide
    simp only [List.cons_append, List.nil_append, List.head?_cons, Option.some.injEq,
      List.tail_cons, or_true, if_true, h1, decide_False]
    rw [← List.cons_append d, htake]
    simp
    omega
  · simp only [List.cons_append, List.nil_append, List.head?_cons, Option.some.injEq,
      List.tail_cons, true_or, if_true, decide_True]
    rw [← List.cons_append d, htake]
    simp
    omega


theorem takeWhile_dropWhile_nil {α : Type} (p : α → Bool) : ∀ l : List α,
    (l.dropWhile p).takeWhile p = [] := by
  intro l
  induction l with
  | nil => rfl
  | cons a l ih =>
    by_cases h : p a = true
    · simpa [List.dropWhile_cons, h] using ih
    · simp [List.dropWhile_cons, List.takeWhile_cons, h]

/-- Either `strtol` converts nothing, or its argument splits into white space, an
optional sign, a non-empty run of digits and a remainder not starting with a digit. -/
theorem strtol_zero_or_parts (s : List Char) :
    strtol s = (0, 0) ∨
    ∃ ws sg ds rest, s = ws ++ (sg ++ (ds ++ rest)) ∧ (∀ c ∈ ws, isspace c = true) ∧
      (sg = [] ∨ sg = ['+'] ∨ sg = ['-']) ∧ (∀ c ∈ ds, isdigit c = true) ∧ ds ≠ [] ∧
      rest.takeWhile isdigit = [] := by
  have hsplit : s = s.takeWhile isspace ++ s.dropWhile isspace :=
    (List.takeWhile_append_dropWhile _ _).symm
  have hws : ∀ c ∈ s.takeWhile isspace, isspace c = true := fun c hc =>
    List.mem_takeWhile_imp hc
  have hparts : ∀ (sg s2 : List Char), s.dropWhile isspace = sg ++ s2 →
      (sg = [] ∨ sg = ['+'] ∨ sg = ['-']) → s2.takeWhile isdigit ≠ [] →
      ∃ ws sg ds rest, s = ws ++ (sg ++ (ds ++ rest)) ∧ (∀ c ∈ ws, isspace c = true) ∧
        (sg = [] ∨ sg = ['+'] ∨ sg = ['-']) ∧ (∀ c ∈ ds, isdigit c = true) ∧ ds ≠ [] ∧
        rest.takeWhile isdigit = [] := by
    intro sg s2 h1 hsg hne
    refine ⟨s.takeWhile isspace, sg, s2.takeWhile isdigit, s2.dropWhile isdigit, ?_, hws, hsg,
      fun c hc => List.mem_takeWhile_imp hc, hne, takeWhile_dropWhile_nil _ _⟩
    rw [List.takeWhile_append_dropWhile, ← h1]
    exact hsplit
  cases hs1 : s.dropWhile isspace with
  | nil =>
    left
    simp [strtol, hs1]
  | cons c t =>
    by_cases hm : c = '-'
    · subst hm
      by_cases hds : t.takeWhile isdigit = []
      · left
        simp [strtol, hs1, hds]
      · right
        exact hparts ['-'] t (by simpa using hs1) (Or.inr (Or.inr rfl)) hds
    · by_cases hp : c = '+'
      · subst hp
        by_cases hds : t.takeWhile isdigit = []
        · left
          simp [strtol, hs1, hds]
        · right
          exact hparts ['+'] t (by simpa using hs1) (Or.inr (Or.inl rfl)) hds
      · by_cases hds : (c :: t).takeWhile isdigit = []
        · left
          simp only [strtol, hs1, List.head?_cons, Option.some.injEq, hm, hp, or_self, if_false,
            hds]
          simp
        · right
          exact hparts [] (c :: t) (by simpa using hs1) (Or.inl rfl) hds

theorem split_at_first {α : Type} (c : α) : ∀ (a a' r r' : List α), c ∉ a → c ∉ a' →
    a ++ c :: r = a' ++ c :: r' → a = a' ∧ r = r' := by
  intro a
  induction a with
  | nil =>
    intro a' r r' _ ha' h
    cases a' with
    | nil => simpa using h
    | cons x a' =>
      simp only [List.nil_append, List.cons_append, List.cons.injEq] at h
      exact absurd (h.1 ▸ List.mem_cons_self _ _) ha'
  | cons x a ih =>
    intro a' r r' ha ha' h
    cases a' with
    | nil =>
      simp only [List.nil_append, List.cons_append, List.cons.injEq] at h
      exact absurd (h.1 ▸ List.mem_cons_self _ _) ha
    | cons y a' =>
      simp only [List.cons_append, List.cons.injEq] at h
      obtain ⟨h1, h2⟩ := ih a' r r' (fun hc => ha (List.mem_cons_of_mem _ hc))
        (fun hc => ha' (List.mem_cons_of_mem _ hc)) h.2
      exact ⟨by rw [h.1, h1], h2⟩


theorem getElem?_append_length {α : Type} (a : List α) (c : α) (r : List α) :
    (a ++ c :: r)[a.length]? = some c := by
  induction a with
  | nil => simp
  | cons x a ih => simpa using ih

theorem bar_not_mem_parts (ws sg ds : List Char) (hws : ∀ c ∈ ws, isspace c = true)
    (hsg : sg = [] ∨ sg = ['+'] ∨ sg = ['-']) (hds : ∀ c ∈ ds, isdigit c = true) :
    '|' ∉ ws ++ (sg ++ ds) := by
  intro h
  rcases List.mem_append.1 h with h | h
  · exact space_ne_bar _ (hws _ h) rfl
  · rcases List.mem_append.1 h with h | h
    · rcases hsg with rfl | rfl | rfl
      · cases h
      · revert h; decide
      · revert h; decide
    · exact (digit_ne_special _ (hds _ h)).2.2 rfl

theorem read_id_sv_no_bar (a b : Char) (rest : List Char) (h : '|' ∉ rest) :
    read_id_sv (a :: b :: rest) = none := by
  simp [read_id_sv, sv_find, h]

theorem read_id_sv_of_parts (a b : Char) (ws sg ds tail : List Char)
    (hws : ∀ c ∈ ws, isspace c = true) (hsg : sg = [] ∨ sg = ['+'] ∨ sg = ['-'])
    (hds : ∀ c ∈ ds, isdigit c = true) (hne : ds ≠ []) :
    read_id_sv (a :: b :: (ws ++ (sg ++ (ds ++ '|' :: tail))))
      = some (to_size_t (max LONG_MIN (min (if sg = ['-'] then -(digits_value ds : Int)
            else (digits_value ds : Int)) LONG_MAX))) := by
  have hst := strtol_of_parts ws sg ds ('|' :: tail) hws hsg hds hne
    (by simp [List.takeWhile_cons, show isdigit '|' = false by decide])
  have hidx : (ws ++ (sg ++ (ds ++ '|' :: tail)))[ws.length + sg.length + ds.length]?
      = some '|' := by
    have := getElem?_append_length (ws ++ (sg ++ ds)) '|' tail
    simpa [List.append_assoc, Nat.add_assoc] using this
  have hfind : sv_find (a :: b :: (ws ++ (sg ++ (ds ++ '|' :: tail)))) '|' 2 ≠ none := by
    simp [sv_find]
  unfold read_id_sv
  cases hf : sv_find (a :: b :: (ws ++ (sg ++ (ds ++ '|' :: tail)))) '|' 2 with
  | none => exact absurd hf hfind
  | some i =>
    simp only [List.drop_succ_cons, List.drop_zero, hst, hidx, if_true]

theorem read_id_sv_parts_of_some (a b : Char) (field tail : List Char) (n : Nat)
    (hbar : '|' ∉ field) (hne : field ≠ [])
    (h : read_id_sv (a :: b :: (field ++ '|' :: tail)) = some n) :
    ∃ ws sg ds, field = ws ++ (sg ++ ds) ∧ (∀ c ∈ ws, isspace c = true) ∧
      (sg = [] ∨ sg = ['+'] ∨ sg = ['-']) ∧ (∀ c ∈ ds, isdigit c = true) ∧ ds ≠ [] ∧
      n = to_size_t (max LONG_MIN (min (if sg = ['-'] then -(digits_value ds : Int)
            else (digits_value ds : Int)) LONG_MAX)) := by
  unfold read_id_sv at h
  cases hf : sv_find (a :: b :: (field ++ '|' :: tail)) '|' 2 with
  | none => simp [hf] at h
  | some i =>
    simp only [hf, List.drop_succ_cons, List.drop_zero] at h
    rcases strtol_zero_or_parts (field ++ '|' :: tail) with h0 | ⟨ws, sg, ds, rest, hs, hws, hsg, hds, hdne, hrest⟩
    · exfalso
      obtain ⟨f, field', rfl⟩ := List.exists_cons_of_ne_nil hne
      rw [h0] at h
      simp only [List.cons_append, List.getElem?_cons_zero, Option.some.injEq] at h
      by_cases hfb : f = '|'
      · exact hbar (hfb ▸ List.mem_cons_self _ _)
      · simp [hfb] at h
    · have hst := strtol_of_parts ws sg ds rest hws hsg hds hdne hrest
      rw [hs, hst] at h
      simp only at h
      by_cases hidx : (ws ++ (sg ++ (ds ++ rest)))[ws.length + sg.length + ds.length]? = some '|'
      · simp only [hidx, if_true, Option.some.injEq] at h
        have hrest' : ∃ rest', rest = '|' :: rest' := by
          have e : ws ++ (sg ++ (ds ++ rest)) = (ws ++ (sg ++ ds)) ++ rest := by
            simp [List.append_assoc]
          have l : ws.length + sg.length + ds.length = (ws ++ (sg ++ ds)).length := by
            simp [Nat.add_assoc]
          rw [e, l, List.getElem?_append_right (le_refl _), Nat.sub_self] at hidx
          cases rest with
          | nil => simp at hidx
          | cons r rest' =>
            simp only [List.getElem?_cons_zero, Option.some.injEq] at hidx
            exact ⟨rest', by rw [hidx]⟩
        obtain ⟨rest', rfl⟩ := hrest'
        have e : ws ++ (sg ++ (ds ++ '|' :: rest')) = (ws ++ (sg ++ ds)) ++ '|' :: rest' := by
          simp [List.append_assoc]
        rw [e] at hs
        obtain ⟨hfield, -⟩ := split_at_first '|' field (ws ++ (sg ++ ds)) tail rest' hbar
          (bar_not_mem_parts ws sg ds hws hsg hds) hs
        exact ⟨ws, sg, ds, hfield, hws, hsg, hds, hdne, h.symm⟩
      · simp [hidx] at h


theorem to_size_t_small (v : Nat) (h : v < 2 ^ 63) :
    to_size_t (max LONG_MIN (min (v : Int) LONG_MAX)) = v := by
  have h1 : min (v : Int) LONG_MAX = v := by
    apply min_eq_left
    unfold LONG_MAX
    omega
  have h2 : max LONG_MIN (v : Int) = v := by
    apply max_eq_right
    unfold LONG_MIN
    omega
  rw [h1, h2]
  unfold to_size_t
  omega

theorem read_id_sv_digits (a b : Char) (ds tail : List Char)
    (hds : ∀ c ∈ ds, isdigit c = true) (hne : ds ≠ []) (hv : digits_value ds < 2 ^ 63) :
    read_id_sv (a :: b :: (ds ++ '|' :: tail)) = some (digits_value ds) := by
  have := read_id_sv_of_parts a b [] [] ds tail (by simp) (Or.inl rfl) hds hne
  simp only [List.nil_append] at this
  rw [this]
  simp [to_size_t_small _ hv]

theorem read_id_sv_type_key (n : Nat) (tail : Key) (h : n < 2 ^ 63) :
    read_id_sv (type_key n tail) = some n := by
  obtain ⟨h1, h2, h3⟩ := toDigits_spec n
  unfold type_key
  rw [read_id_sv_digits 't' '|' _ tail h1 h2 (by rw [h3]; exact h), h3]

theorem starts_with_iff : ∀ (p k : Key), starts_with k p = true ↔ ∃ r, k = p ++ r := by
  intro p
  induction p with
  | nil => intro k; cases k <;> simp [starts_with]
  | cons d p ih =>
    intro k
    cases k with
    | nil => simp [starts_with]
    | cons c k =>
      simp only [starts_with, Bool.and_eq_true, decide_eq_true_eq, ih, List.cons_append,
        List.cons.injEq]
      constructor
      · rintro ⟨h, r, hr⟩
        exact ⟨r, h, hr⟩
      · rintro ⟨r, h, hr⟩
        exact ⟨h, r, hr⟩

theorem heads_after_subset : ∀ (l : List Key) (p : Option Nat) (x : Key),
    x ∈ heads_after p l → x ∈ l := by
  intro l
  induction l with
  | nil => intro p x h; simp [heads_after] at h
  | cons k l ih =>
    intro p x h
    unfold heads_after at h
    by_cases hk : read_id_sv k = p
    · simp only [hk, if_true] at h
      exact List.mem_cons_of_mem _ (ih p x h)
    · simp only [hk, if_false] at h
      rcases List.mem_cons.1 h with rfl | h
      · exact List.mem_cons_self _ _
      · exact List.mem_cons_of_mem _ (ih _ x h)

theorem id_not_in_heads_after : ∀ (t : List Key) (p : Option Nat),
    (∀ b y c, t = b ++ y :: c → read_id_sv y = p → ∀ z ∈ b, read_id_sv z = p) →
    p ∉ (heads_after p t).map read_id_sv := by
  intro t
  induction t with
  | nil => intro p _; simp [heads_after]
  | cons y t ih =>
    intro p hyp
    unfold heads_after
    by_cases hy : read_id_sv y = p
    · simp only [hy, if_true]
      apply ih p
      intro b y' c ht hy' z hz
      exact hyp (y :: b) y' c (by rw [ht]; rfl) hy' z (List.mem_cons_of_mem _ hz)
    · simp only [hy, if_false, List.map_cons, List.mem_cons, not_or]
      refine ⟨fun e => hy e.symm, ?_⟩
      intro hmem
      obtain ⟨y', hy'mem, hy'id⟩ := List.mem_map.1 hmem
      have hy't := heads_after_subset t _ y' hy'mem
      obtain ⟨b, c, ht⟩ := List.append_of_mem hy't
      exact hy (hyp (y :: b) y' c (by rw [ht]; rfl) hy'id y (List.mem_cons_self _ _))

theorem heads_after_nodup : ∀ (t : List Key),
    (∀ a x b y c, t = a ++ x :: (b ++ y :: c) → read_id_sv x = read_id_sv y →
      ∀ z ∈ b, read_id_sv z = read_id_sv x) →
    ∀ p, ((heads_after p t).map read_id_sv).Nodup := by
  intro t
  induction t with
  | nil => intro _ p; simp [heads_after]
  | cons y t ih =>
    intro hyp p
    have hyp' : ∀ a x b y' c, t = a ++ x :: (b ++ y' :: c) → read_id_sv x = read_id_sv y' →
        ∀ z ∈ b, read_id_sv z = read_id_sv x := by
      intro a x b y' c ht
      exact hyp (y :: a) x b y' c (by rw [ht]; rfl)
    unfold heads_after
    by_cases hy : read_id_sv y = p
    · simp only [hy, if_true]
      exact ih hyp' p
    · simp only [hy, if_false, List.map_cons, List.nodup_cons]
      refine ⟨?_, ih hyp' _⟩
      apply id_not_in_heads_after
      intro b y' c ht hy' z hz
      exact hyp [] y b y' c (by rw [ht]; rfl) hy'.symm z hz

theorem run_heads_nodup (l : List Key)
    (hyp : ∀ a x b y c, l = a ++ x :: (b ++ y :: c) → read_id_sv x = read_id_sv y →
      ∀ z ∈ b, read_id_sv z = read_id_sv x) :
    ((run_heads l).map read_id_sv).Nodup := by
  cases l with
  | nil => simp [run_heads]
  | cons k t =>
    have hyp' : ∀ a x b y' c, t = a ++ x :: (b ++ y' :: c) → read_id_sv x = read_id_sv y' →
        ∀ z ∈ b, read_id_sv z = read_id_sv x := by
      intro a x b y' c ht
      exact hyp (k :: a) x b y' c (by rw [ht]; rfl)
    simp only [run_heads, List.map_cons, List.nodup_cons]
    refine ⟨?_, heads_after_nodup t hyp' _⟩
    apply id_not_in_heads_after
    intro b y' c ht hy' z hz
    exact hyp [] k b y' c (by rw [ht]; rfl) hy'.symm z hz

theorem id_mem_heads_after : ∀ (t : List Key) (p : Option Nat) (x : Key), x ∈ t →
    read_id_sv x = p ∨ read_id_sv x ∈ (heads_after p t).map read_id_sv := by
  intro t
  induction t with
  | nil => intro p x h; cases h
  | cons y t ih =>
    intro p x hx
    unfold heads_after
    by_cases hy : read_id_sv y = p
    · simp only [hy, if_true]
      rcases List.mem_cons.1 hx with rfl | hx
      · exact Or.inl hy
      · exact ih p x hx
    · simp only [hy, if_false, List.map_cons, List.mem_cons]
      right
      rcases List.mem_cons.1 hx with rfl | hx
      · exact Or.inl rfl
      · rcases ih (read_id_sv y) x hx with h | h
        · exact Or.inl h
        · exact Or.inr h

theorem id_mem_run_heads (l : List Key) (x : Key) (hx : x ∈ l) :
    read_id_sv x ∈ (run_heads l).map read_id_sv := by
  cases l with
  | nil => cases hx
  | cons k t =>
    simp only [run_heads, List.map_cons, List.mem_cons]
    rcases List.mem_cons.1 hx with rfl | hx
    · exact Or.inl rfl
    · exact id_mem_heads_after t _ x hx

theorem run_heads_subset (l : List Key) (x : Key) (hx : x ∈ run_heads l) : x ∈ l := by
  cases l with
  | nil => simp [run_heads] at hx
  | cons k t =>
    simp only [run_heads, List.mem_cons] at hx
    rcases hx with rfl | hx
    · exact List.mem_cons_self _ _
    · exact List.mem_cons_of_mem _ (heads_after_subset t _ x hx)


theorem type_key_eq_append (n : Nat) (tail : Key) :
    type_key n tail = ('t' :: '|' :: (Nat.toDigits 10 n ++ ['|'])) ++ tail := by
  simp [type_key]

/-- In a sorted list of well-formed type-index keys, the keys between two keys of one
type id have that type id. -/
theorem same_id_between (l : List Key) (hs : sorted_keys l)
    (hform : ∀ k ∈ l, ∃ n tail, n < 2 ^ 63 ∧ k = type_key n tail) :
    ∀ a x b y c, l = a ++ x :: (b ++ y :: c) → read_id_sv x = read_id_sv y →
      ∀ z ∈ b, read_id_sv z = read_id_sv x := by
  intro a x b y c hl hxy z hz
  subst hl
  have hs1 := (List.pairwise_append.1 hs).2.1
  have hs2 := List.pairwise_cons.1 hs1
  have hxz : key_lt x z = true := hs2.1 z (List.mem_append_left _ hz)
  have hzy : key_lt z y = true :=
    (List.pairwise_append.1 hs2.2).2.2 z hz y (List.mem_cons_self _ _)
  obtain ⟨n, tx, hn, rfl⟩ := hform x (by simp)
  obtain ⟨n', ty, hn', rfl⟩ := hform y (by simp)
  obtain ⟨m, tz, hm, rfl⟩ := hform z (by simp [hz])
  rw [read_id_sv_type_key n tx hn, read_id_sv_type_key n' ty hn'] at hxy
  have hnn : n = n' := Option.some.inj hxy
  subst hnn
  have hx : starts_with (type_key n tx) ('t' :: '|' :: (Nat.toDigits 10 n ++ ['|'])) = true :=
    (starts_with_iff _ _).2 ⟨tx, type_key_eq_append n tx⟩
  have hy : starts_with (type_key n ty) ('t' :: '|' :: (Nat.toDigits 10 n ++ ['|'])) = true :=
    (starts_with_iff _ _).2 ⟨ty, type_key_eq_append n ty⟩
  obtain ⟨r, hr⟩ := (starts_with_iff _ _).1 (starts_with_between _ _ _ _ hxz hzy hx hy)
  have hr' : Nat.toDigits 10 m ++ '|' :: tz = Nat.toDigits 10 n ++ '|' :: r := by
    simpa [type_key] using hr
  have hbar : ∀ q : Nat, '|' ∉ Nat.toDigits 10 q := fun q hq =>
    (digit_ne_special _ ((toDigits_spec q).1 _ hq)).2.2 rfl
  obtain ⟨hd, -⟩ := split_at_first '|' _ _ _ _ (hbar m) (hbar n) hr'
  have hmn : m = n := by
    rw [← (toDigits_spec m).2.2, ← (toDigits_spec n).2.2, hd]
  subst hmn
  rw [read_id_sv_type_key m tz hm, read_id_sv_type_key m tx hn]

/-- What the loop of `operator++` leaves: a null cursor when every later `t|` key up to
the end of the `t|` range has the id it started with, otherwise the cursor on the first
later key whose id differs. -/
theorem operator_inc_loop_spec : ∀ (rest : List Key) (k : Key) (id : Option Nat),
    (operator_inc_loop id (k :: rest) = none ∧
      ∀ x ∈ rest.takeWhile (fun k => starts_with k prefix_), read_id_sv x = id) ∨
    (∃ pre k' rest', rest = pre ++ k' :: rest' ∧
      (∀ x ∈ pre, starts_with x prefix_ = true ∧ read_id_sv x = id) ∧
      starts_with k' prefix_ = true ∧ read_id_sv k' ≠ id ∧
      operator_inc_loop id (k :: rest) = some (k' :: rest')) := by
  intro rest
  induction rest with
  | nil => intro k id; left; simp [operator_inc_loop]
  | cons k' rest ih =>
    intro k id
    by_cases hp : starts_with k' prefix_ = true
    · by_cases hid : read_id_sv k' = id
      · have hloop : operator_inc_loop id (k :: k' :: rest) = operator_inc_loop id (k' :: rest) := by
          simp [operator_inc_loop, hp, hid]
        rcases ih k' id with ⟨h1, h2⟩ | ⟨pre, k'', rest', h1, h2, h3, h4, h5⟩
        · left
          refine ⟨by rw [hloop, h1], ?_⟩
          intro x hx
          rw [List.takeWhile_cons] at hx
          simp only [hp, if_true, List.mem_cons] at hx
          rcases hx with rfl | hx
          · exact hid
          · exact h2 x hx
        · right
          refine ⟨k' :: pre, k'', rest', by rw [h1]; rfl, ?_, h3, h4, by rw [hloop, h5]⟩
          intro x hx
          rcases List.mem_cons.1 hx with rfl | hx
          · exact ⟨hp, hid⟩
          · exact h2 x hx
      · right
        exact ⟨[], k', rest, rfl, by simp, hp, hid, by simp [operator_inc_loop, hp, hid]⟩
    · left
      have hp' : starts_with k' prefix_ = false := by simpa using hp
      simp [operator_inc_loop, hp', List.takeWhile_cons]


/-! ### The claims on the type-listing iterator -/

/-- C9, amended: for a key that starts with `t|`, `read_id_` returns none when no further
`|` follows. When the text between `t|` and the next `|` is not empty, `read_id_` returns
`n` exactly when that text is optional white space, an optional sign `+` or `-`, and a
non-empty run of decimal digits, `n` being the `size_t` conversion of the signed value
saturated to the range of `long`; so for a non-empty run of digits of value below 2^63
alone it returns that value. -/
theorem read_id_accepts_what_strtol_accepts (field tail : List Char) (more : List Key)
    (hbar : '|' ∉ field) (hne : field ≠ []) :
    rocksdb_types_iterator.read_id_ ⟨some (('t' :: '|' :: field) :: more)⟩ = .ok none ∧
    rocksdb_types_iterator.read_id_ ⟨some (['t', '|'] :: more)⟩ = .ok none ∧
    (∀ n, rocksdb_types_iterator.read_id_
          ⟨some (('t' :: '|' :: (field ++ '|' :: tail)) :: more)⟩ = .ok (some n) ↔
      ∃ ws sg ds, field = ws ++ (sg ++ ds) ∧ (∀ c ∈ ws, isspace c = true) ∧
        (sg = [] ∨ sg = ['+'] ∨ sg = ['-']) ∧ (∀ c ∈ ds, isdigit c = true) ∧ ds ≠ [] ∧
        n = to_size_t (max LONG_MIN (min (if sg = ['-'] then -(digits_value ds : Int)
              else (digits_value ds : Int)) LONG_MAX))) ∧
    ((∀ c ∈ field, isdigit c = true) → digits_value field < 2 ^ 63 →
      rocksdb_types_iterator.read_id_
          ⟨some (('t' :: '|' :: (field ++ '|' :: tail)) :: more)⟩
        = .ok (some (digits_value field))) := by
  have hread : ∀ sv : Key, rocksdb_types_iterator.read_id_ ⟨some (sv :: more)⟩
      = .ok (read_id_sv sv) := fun _ => rfl
  refine ⟨?_, ?_, ?_, ?_⟩
  · rw [hread, read_id_sv_no_bar _ _ _ hbar]
  · rw [hread, read_id_sv_no_bar _ _ _ (by simp)]
  · intro n
    rw [hread]
    constructor
    · intro h
      have h' : read_id_sv ('t' :: '|' :: (field ++ '|' :: tail)) = some n := by
        injection h
      exact read_id_sv_parts_of_some _ _ field tail n hbar hne h'
    · rintro ⟨ws, sg, ds, rfl, hws, hsg, hds, hdne, rfl⟩
      have := read_id_sv_of_parts 't' '|' ws sg ds tail hws hsg hds hdne
      simp only [List.append_assoc] at this ⊢
      rw [this]
  · intro hds hv
    rw [hread, read_id_sv_digits _ _ field tail hds hne hv]

theorem read_id_accepts_what_strtol_accepts_witness :
    ('|' ∉ ['1', '2'] ∧ ['1', '2'] ≠ []) ∧
    rocksdb_types_iterator.read_id_ ⟨some [['t', '|', '1', '2', '|', 'x']]⟩ = .ok (some 12) :=
  ⟨⟨by decide, by decide⟩,
   (read_id_accepts_what_strtol_accepts ['1', '2'] ['x'] [] (by decide) (by decide)).2.2.2
     (by decide) (by decide)⟩

/-- C9 fails as stated: a field with a sign and a field with leading white space are
decoded, and a run of digits of value 2^63 is decoded as 2^63 - 1. -/
theorem read_id_sign_and_space_counterexample :
    rocksdb_types_iterator.read_id_ ⟨some ["t|+5|x".toList]⟩ = .ok (some 5) ∧
    rocksdb_types_iterator.read_id_ ⟨some ["t| 7|x".toList]⟩ = .ok (some 7) ∧
    rocksdb_types_iterator.read_id_ ⟨some ["t|9223372036854775808|x".toList]⟩
      = .ok (some 9223372036854775807) :=
  ⟨by rfl, by rfl, by rfl⟩

/-- On a key with an empty field, `t||x`, `strtol` converts nothing, leaves `pEnd` on the
`|`, and `read_id_` returns 0. -/
theorem read_id_empty_field :
    rocksdb_types_iterator.read_id_ ⟨some ["t||x".toList]⟩ = .ok (some 0) := by
  rfl

/-- C8: `operator==` reads a key through a null cursor. With one iterator on a key and
the other exhausted the comparison, and with it `operator!=`, is a null dereference. -/
theorem operator_eq_reads_through_null_cursor (k : Key) (rest : List Key) :
    rocksdb_types_iterator.operator_eq ⟨some (k :: rest)⟩ rocksdb_types_iterator.default_
      = .error .null_dereference ∧
    rocksdb_types_iterator.operator_eq rocksdb_types_iterator.default_ ⟨some (k :: rest)⟩
      = .error .null_dereference ∧
    rocksdb_types_iterator.operator_ne ⟨some (k :: rest)⟩ rocksdb_types_iterator.default_
      = .error .null_dereference ∧
    rocksdb_types_iterator.operator_eq
        (rocksdb_types_iterator.of_storage ⟨["t|1|x".toList]⟩) rocksdb_types_iterator.default_
      = .error .null_dereference :=
  ⟨by rfl, by rfl, by rfl, by rfl⟩

/-- C4, amended: over a sorted store whose `t|` keys are `t|<decimal type id>|...` with
type ids below 2^63, the iteration from the constructed iterator ends with a null cursor,
having been positioned on the first key of every maximal run of consecutive `t|` keys with
one type id; no type id is yielded twice and every type id present is yielded. Each
`operator++` leaves the cursor null, when every later key of the `t|` range has the id it
started on, or on the first later key whose id differs. -/
theorem types_iteration_yields_each_type_once (db : List Key) (hs : sorted_keys db)
    (hform : ∀ k ∈ db, starts_with k prefix_ = true →
      ∃ n tail, n < 2 ^ 63 ∧ k = type_key n tail) :
    (∃ ks, (rocksdb_types_iterator.of_storage ⟨db⟩).traverse db.length = .ok (ks, ⟨none⟩) ∧
      ks = run_heads (db.filter (fun k => starts_with k prefix_)) ∧
      (ks.map read_id_sv).Nodup ∧
      (∀ n tail, n < 2 ^ 63 → type_key n tail ∈ db → some n ∈ ks.map read_id_sv) ∧
      (∀ id ∈ ks.map read_id_sv, ∃ n tail, id = some n ∧ type_key n tail ∈ db)) ∧
    (∀ k rest, ∃ next, rocksdb_types_iterator.operator_inc ⟨some (k :: rest)⟩ = .ok next ∧
      ((next.state_ = none ∧
          ∀ x ∈ rest.takeWhile (fun k => starts_with k prefix_), read_id_sv x = read_id_sv k) ∨
        (∃ pre k' rest', rest = pre ++ k' :: rest' ∧
          (∀ x ∈ pre, starts_with x prefix_ = true ∧ read_id_sv x = read_id_sv k) ∧
          starts_with k' prefix_ = true ∧ read_id_sv k' ≠ read_id_sv k ∧
          next.state_ = some (k' :: rest')))) := by
  constructor
  · have hfs : sorted_keys (db.filter (fun k => starts_with k prefix_)) :=
      List.Pairwise.sublist (List.filter_sublist _) hs
    have hff : ∀ k ∈ db.filter (fun k => starts_with k prefix_),
        ∃ n tail, n < 2 ^ 63 ∧ k = type_key n tail := by
      intro k hk
      obtain ⟨h1, h2⟩ := List.mem_filter.1 hk
      exact hform k h1 h2
    refine ⟨_, traverse_of_storage db hs, rfl,
      run_heads_nodup _ (same_id_between _ hfs hff), ?_, ?_⟩
    · intro n tail hn hmem
      have hp : starts_with (type_key n tail) prefix_ = true := by
        simp [type_key, prefix_, starts_with]
      have hmf : type_key n tail ∈ db.filter (fun k => starts_with k prefix_) :=
        List.mem_filter.2 ⟨hmem, hp⟩
      have := id_mem_run_heads _ _ hmf
      rwa [read_id_sv_type_key n tail hn] at this
    · intro id hid
      obtain ⟨k, hk, rfl⟩ := List.mem_map.1 hid
      have hkf := run_heads_subset _ _ hk
      obtain ⟨n, tail, hn, rfl⟩ := hff k hkf
      exact ⟨n, tail, read_id_sv_type_key n tail hn, (List.mem_filter.1 hkf).1⟩
  · intro k rest
    refine ⟨⟨operator_inc_loop (read_id_sv k) (k :: rest)⟩, rfl, ?_⟩
    rcases operator_inc_loop_spec rest k (read_id_sv k) with
      ⟨h1, h2⟩ | ⟨pre, k', rest', h1, h2, h3, h4, h5⟩
    · exact Or.inl ⟨h1, h2⟩
    · exact Or.inr ⟨pre, k', rest', h1, h2, h3, h4, h5⟩

/-- A sorted store with two keys of type 1, one key of type 2 and keys of other
indices before and after. -/
theorem scenario_store_well_formed :
    sorted_keys ["i|5".toList, "t|1|a".toList, "t|1|b".toList, "t|2|a".toList, "u|x".toList] ∧
    ∀ k ∈ ["i|5".toList, "t|1|a".toList, "t|1|b".toList, "t|2|a".toList, "u|x".toList],
      starts_with k prefix_ = true → ∃ n tail, n < 2 ^ 63 ∧ k = type_key n tail := by
  constructor
  · unfold sorted_keys
    decide
  · intro k hk hp
    simp only [List.mem_cons, List.mem_singleton, List.not_mem_nil, or_false] at hk
    rcases hk with rfl | rfl | rfl | rfl | rfl
    · exact absurd hp (by decide)
    · exact ⟨1, ['a'], by norm_num, by decide⟩
    · exact ⟨1, ['b'], by norm_num, by decide⟩
    · exact ⟨2, ['a'], by norm_num, by decide⟩
    · exact absurd hp (by decide)

theorem types_iteration_yields_each_type_once_witness :
    sorted_keys ["i|5".toList, "t|1|a".toList, "t|1|b".toList, "t|2|a".toList, "u|x".toList] ∧
    ∃ ks, (rocksdb_types_iterator.of_storage
        ⟨["i|5".toList, "t|1|a".toList, "t|1|b".toList, "t|2|a".toList, "u|x".toList]⟩).traverse 5
          = .ok (ks, ⟨none⟩) ∧
      ks = ["t|1|a".toList, "t|2|a".toList] ∧ (ks.map read_id_sv).Nodup :=
  ⟨scenario_store_well_formed.1, by
    obtain ⟨ks, h1, h2, h3, -⟩ := (types_iteration_yields_each_type_once _
      scenario_store_well_formed.1 scenario_store_well_formed.2).1
    exact ⟨ks, h1, by rw [h2]; rfl, h3⟩⟩

/-- C4 fails as stated: in the sorted store of the three keys of the type ids 2^63 - 1, 93
and 9923372036854775807, the iteration is positioned on all three keys and `read_id_`
yields 2^63 - 1 on the first and on the third; the type id 9923372036854775807 is
not yielded. -/
theorem types_iteration_counterexample :
    sorted_keys [type_key 9223372036854775807 [], type_key 93 [],
      type_key 9923372036854775807 []] ∧
    (rocksdb_types_iterator.of_storage ⟨[type_key 9223372036854775807 [], type_key 93 [],
        type_key 9923372036854775807 []]⟩).traverse 3
      = .ok ([type_key 9223372036854775807 [], type_key 93 [],
          type_key 9923372036854775807 []], ⟨none⟩) ∧
    [type_key 9223372036854775807 [], type_key 93 [],
        type_key 9923372036854775807 []].map read_id_sv
      = [some 9223372036854775807, some 93, some 9223372036854775807] := by
  refine ⟨?_, by rfl, by rfl⟩
  unfold sorted_keys
  decide

/-- C5, amended: the iterator has no failure for a key whose type id cannot be decoded.
When the key after the current one is such a `t|` key, `operator++` returns an iterator:
positioned on that key, where `read_id_` gives none, if the current key's id decodes; and
the same iterator as `operator++` from that key, which is thereby passed over, if the
current key's id cannot be decoded either. The iteration over a sorted store always
ends with a null cursor and no failure. -/
theorem undecodable_key_is_grouped_not_reported (k k' : Key) (rest : List Key)
    (hp : starts_with k' prefix_ = true) (hbad : read_id_sv k' = none) :
    (read_id_sv k ≠ none →
      rocksdb_types_iterator.operator_inc ⟨some (k :: k' :: rest)⟩ = .ok ⟨some (k' :: rest)⟩) ∧
    (read_id_sv k = none →
      rocksdb_types_iterator.operator_inc ⟨some (k :: k' :: rest)⟩
        = rocksdb_types_iterator.operator_inc ⟨some (k' :: rest)⟩) ∧
    (∃ next, rocksdb_types_iterator.operator_inc ⟨some (k :: k' :: rest)⟩ = .ok next) ∧
    rocksdb_types_iterator.read_id_ ⟨some (k' :: rest)⟩ = .ok none ∧
    (∀ db, sorted_keys db → ∃ ks,
      (rocksdb_types_iterator.of_storage ⟨db⟩).traverse db.length = .ok (ks, ⟨none⟩)) := by
  have hstep : ∀ (k : Key) (rest : List Key), rocksdb_types_iterator.operator_inc ⟨some (k :: rest)⟩
      = .ok ⟨operator_inc_loop (read_id_sv k) (k :: rest)⟩ := fun _ _ => rfl
  refine ⟨?_, ?_, ⟨_, hstep k (k' :: rest)⟩, ?_, fun db hs => ⟨_, traverse_of_storage db hs⟩⟩
  · intro hk
    have hne : read_id_sv k' ≠ read_id_sv k := by
      rw [hbad]; exact fun e => hk e.symm
    rw [hstep]
    simp [operator_inc_loop, hp, hne]
  · intro hk
    rw [hstep, hstep, hk, hbad]
    simp [operator_inc_loop, hp, hbad]
  · show Except.ok (read_id_sv k') = Except.ok none
    rw [hbad]

theorem undecodable_key_is_grouped_not_reported_witness :
    (starts_with "t|y|c".toList prefix_ = true ∧ read_id_sv "t|y|c".toList = none) ∧
    rocksdb_types_iterator.operator_inc ⟨some ["t|x|b".toList, "t|y|c".toList, "t|z|d".toList]⟩
      = rocksdb_types_iterator.operator_inc ⟨some ["t|y|c".toList, "t|z|d".toList]⟩ :=
  ⟨⟨by decide, by decide⟩,
   (undecodable_key_is_grouped_not_reported "t|x|b".toList "t|y|c".toList ["t|z|d".toList]
     (by decide) (by decide)).2.1 (by decide)⟩

/-- C5 fails as stated: in the sorted store `t|1|a`, `t|2|d`, `t|x|b`, `t|y|c` the last
two keys have a type id that `read_id_` cannot decode; the iteration ends without a
failure, positioned on `t|x|b` as on any key, and never positioned on `t|y|c`. -/
theorem undecodable_key_counterexample :
    sorted_keys ["t|1|a".toList, "t|2|d".toList, "t|x|b".toList, "t|y|c".toList] ∧
    read_id_sv "t|x|b".toList = none ∧ read_id_sv "t|y|c".toList = none ∧
    (rocksdb_types_iterator.of_storage
        ⟨["t|1|a".toList, "t|2|d".toList, "t|x|b".toList, "t|y|c".toList]⟩).traverse 4
      = .ok (["t|1|a".toList, "t|2|d".toList, "t|x|b".toList], ⟨none⟩) ∧
    "t|y|c".toList ∉ ["t|1|a".toList, "t|2|d".toList, "t|x|b".toList] := by
  refine ⟨?_, by decide, by decide, by rfl, by decide⟩
  unfold sorted_keys
  decide

end IfcParse

namespace variant_iterator

variable {ι M : Type} {Iterators : ι → Type}

/-- C6: `a == b` holds exactly when `a` and `b` hold the same concrete kind and the two
held iterators compare equal under that kind's own equality; `a != b` holds exactly
when `a == b` does not. -/
theorem operator_eq_iff_same_kind_and_position [DecidableEq ι]
    (eq : ∀ i, Iterators i → Iterators i → Bool) (a b : variant_iterator Iterators) :
    (operator_eq eq a b = true ↔
      ∃ h : a.index = b.index, eq b.index (h ▸ a.it_) b.it_ = true) ∧
    (operator_ne eq a b = true ↔ ¬ operator_eq eq a b = true) := by
  constructor
  · unfold operator_eq
    by_cases h : a.index = b.index
    · rw [dif_pos h]
      exact ⟨fun hh => ⟨h, hh⟩, fun ⟨_, hh⟩ => hh⟩
    · rw [dif_neg h]
      exact ⟨fun hh => Bool.noConfusion hh, fun ⟨h', _⟩ => absurd h' h⟩
  · simp [operator_ne]

/-- A prefix step keeps the held kind and applies that kind's own step to the held
object. -/
theorem operator_inc_keeps_kind
    (inc : ∀ i, M → Iterators i → Except IfcParse.Fault (M × Iterators i))
    (m m' : M) (v v' : variant_iterator Iterators)
    (h : operator_inc inc m v = .ok (m', v')) :
    v'.index = v.index ∧
    ∃ p, inc v.index m v.it_ = .ok (m', p) ∧ v' = ⟨v.index, p⟩ := by
  unfold operator_inc at h
  cases hinc : inc v.index m v.it_ with
  | error f => rw [hinc] at h; cases h
  | ok r =>
    rw [hinc] at h
    simp only [Except.ok.injEq, Prod.mk.injEq] at h
    obtain ⟨h1, h2⟩ := h
    subst h1 h2
    exact ⟨rfl, r.2, rfl, rfl⟩

/-- When copying is memberwise and the step of the held kind changes nothing outside the
stepped object, the postfix increment returns the object that the iterator was, in the
memory it was in, and leaves the iterator as the prefix increment does. -/
theorem operator_inc_post_of_self_contained
    (inc : ∀ i, M → Iterators i → Except IfcParse.Fault (M × Iterators i))
    (m : M) (v v' : variant_iterator Iterators)
    (h : operator_inc inc m v = .ok (m, v')) :
    operator_inc_post (fun _ m p => (m, p)) inc m v = .ok ⟨m, v, v'⟩ := by
  unfold operator_inc_post
  simp only [h]

end variant_iterator

/-- C7: the postfix increment does not return the iterator as it was before the step when
the held kind is `rocksdb_types_iterator`. Over the store `t|1|a`, `t|2|a` the iterator
reads `t|1|a`; after the postfix increment the returned copy holds the same pointer as
before and reads `t|2|a` through it, the cursor having moved. Over the store `t|1|a`
alone the step deletes the cursor and the returned copy points to the deleted cursor. -/
theorem postfix_copy_shares_the_stepped_cursor :
    IfcParse.rocksdb_types_iterator_object.key
        [some ["t|1|a".toList, "t|2|a".toList]] ⟨some 0⟩ = .ok "t|1|a".toList ∧
    variant_iterator.operator_inc_post persistent_copy persistent_inc
        [some ["t|1|a".toList, "t|2|a".toList]]
        (⟨(), ⟨some 0⟩⟩ : variant_iterator persistent_alternatives)
      = .ok ⟨[some ["t|2|a".toList]], ⟨(), ⟨some 0⟩⟩, ⟨(), ⟨some 0⟩⟩⟩ ∧
    IfcParse.rocksdb_types_iterator_object.key
        [some ["t|2|a".toList]] ⟨some 0⟩ = .ok "t|2|a".toList ∧
    variant_iterator.operator_inc_post persistent_copy persistent_inc
        [some ["t|1|a".toList]]
        (⟨(), ⟨some 0⟩⟩ : variant_iterator persistent_alternatives)
      = .ok ⟨[none], ⟨(), ⟨some 0⟩⟩, ⟨(), ⟨none⟩⟩⟩ ∧
    IfcParse.rocksdb_types_iterator_object.key [none] ⟨some 0⟩
      = .error .dangling_pointer :=
  ⟨by rfl, by rfl, by rfl, by rfl, by rfl⟩

namespace ifcbridge

/-- C10: for every path, `import_ifc` returns a `FileRaw` with exactly one extrusion
(`extrusions_len` is 1, `extrusions_ptr` is not null) whose profile points at the stored
points and has length 4, the number of stored points, which are (0,0), (1,0), (1,1),
(0,1) in that order; its height is 1 and its 16-entry xform is the 4x4 identity; the
result does not depend on the path. -/
theorem import_ifc_unit_square_extrusion (path : Option String) :
    extrusions_len (import_ifc path) = 1 ∧
    extrusions_ptr (import_ifc path) ≠ none ∧
    (∃ ex, (import_ifc path).extrusions_ = [ex] ∧
      ex.profile.len = 4 ∧
      ex.profile.len = ((import_ifc path).pts_storage_.length : Int) ∧
      ex.profile.pts = data (import_ifc path).pts_storage_ ∧
      ex.profile.pts ≠ none ∧
      ex.height = 1 ∧
      ex.xform.length = 16 ∧
      ∀ i, i < 16 → ex.xform[i]? = some (if i / 4 = i % 4 then 1 else 0)) ∧
    (import_ifc path).pts_storage_ = [⟨0, 0⟩, ⟨1, 0⟩, ⟨1, 1⟩, ⟨0, 1⟩] ∧
    (∀ other : Option String, import_ifc other = import_ifc path) := by
  have hpath : import_ifc path = import_ifc none := rfl
  rw [hpath]
  refine ⟨by decide, by decide, ⟨_, rfl, by decide, by decide, by decide, by decide, by decide,
    by decide, ?_⟩, by decide, fun _ => rfl⟩
  intro i hi
  interval_cases i <;> decide

end ifcbridge
